import Mathlib

/-!
Verification of node-stepify `lib/Step.js` (the Step control-flow handle).

The source file embedded here is `src/lib/Step.js`.  Where a definition
corresponds to code of the Task class (which is only referenced from
`Step.js`), the definition is modelled from the specification and marked
as such in its doc comment.

Values carried through the machinery are a type parameter `α`; errors are a
type parameter `ε`.  JavaScript truthiness of the error slot is modelled by
`Option ε`: `some e` is a truthy error, `none` covers the falsy values
(`null`, and `undefined`, which `done` normalizes to `null`).
-/

namespace Stepify

/-! ## The `parallel` fan-in machinery (Step.js lines 101-137)

`parallel` dispatches one asynchronous branch per element of `arr`; each
branch finishes by calling the internal closure `done.bind(root, i)` with
its index `i`, an error and a result.  We embed that closure and the state
it mutates (`completed` and `result`), and drive it with a trace of branch
completion events.  Calls made to the aggregation `callback` are collected
in a list, in the order the code performs them. -/

/-- A branch completion event: branch `n` reports success with a result,
or reports an error. -/
inductive PEvent (ε ρ : Type) : Type
| ok (n : Nat) (r : ρ)
| err (n : Nat) (e : ε)
deriving DecidableEq

/-- One invocation of the aggregation `callback`: `failed e` is
`callback(err)`, `success rs` is `callback(null, results)`.  A hole in the
results array (an index never assigned) is `none`. -/
inductive CbCall (ε ρ : Type) : Type
| failed (e : ε)
| success (rs : List (Option ρ))
deriving DecidableEq

/-- The mutable state captured by the internal `done` closure of `parallel`:
the `completed` counter and the `result` array. -/
structure PState (ρ : Type) : Type where
  completed : Nat
  result : List (Option ρ)
deriving DecidableEq

/-- Index of a branch completion event. -/
def PEvent.idx : PEvent ε ρ → Nat
| .ok n _ => n
| .err n _ => n

/-- Whether an event reports an error. -/
def PEvent.isErr : PEvent ε ρ → Bool
| .ok _ _ => false
| .err _ _ => true

/-- Initial closure state: `completed = 0`, `result = []`.  The result
array is modelled pre-sized to `len` holes; the JS array grows on
assignment, and the two agree on every index a branch can report. -/
def pInit (len : Nat) : PState ρ := ⟨0, List.replicate len none⟩

/-- Step.js lines 108-118, the internal `done` closure of `parallel`:
on an error the aggregation callback is called with that error at once; on
a success the result is stored at the branch index, the counter is
incremented, and when it reaches `arr.length` the callback is called with
`(null, result)`.  Returns the new state and the callback calls made. -/
def pDone (len : Nat) (s : PState ρ) : PEvent ε ρ → PState ρ × List (CbCall ε ρ)
| .err _ e => (s, [.failed e])
| .ok n r =>
    let result := s.result.set n (some r)
    let completed := s.completed + 1
    if len ≤ completed then (⟨completed, result⟩, [.success result])
    else (⟨completed, result⟩, [])

/-- Run the closure over a trace of branch completion events from a given
state, collecting all aggregation callback calls in order. -/
def pRunFrom (len : Nat) (s : PState ρ) : List (PEvent ε ρ) → PState ρ × List (CbCall ε ρ)
| [] => (s, [])
| ev :: rest =>
    let p := pDone len s ev
    let q := pRunFrom len p.1 rest
    (q.1, p.2 ++ q.2)

/-- All aggregation callback calls produced by a trace of branch
completions for a `parallel` call over `len` items. -/
def pRun (len : Nat) (events : List (PEvent ε ρ)) : List (CbCall ε ρ) :=
(pRunFrom len (pInit len) events).2

/-- The error calls a trace produces, one per erroring branch, in trace
order. -/
def errCalls : List (PEvent ε ρ) → List (CbCall ε ρ) :=
List.filterMap fun ev => match ev with
  | .err _ e => some (.failed e)
  | .ok _ _ => none

/-- Number of successful completions in a trace. -/
def okCount (events : List (PEvent ε ρ)) : Nat :=
(events.filter fun ev => !ev.isErr).length

/-- A trace can only contain events issued by dispatched branches: every
reported index is below the number of items. -/
def validEvents (len : Nat) (events : List (PEvent ε ρ)) : Prop :=
∀ ev ∈ events, ev.idx < len

/-! ## Task state and the spec-modelled Task internals

`Step.js` reaches into its owning Task through `this._task`.  The Task
class is not part of the embedded source file; its data model and the
operations `Step.js` calls on it (`_getStep`, `_run`, `_result`, the
`done` emission) are modelled from the specification. -/

/-- Modelled from the spec (data model of a Task): the ordered step
sequence is kept as its list of unique names (the `_index` of a step is its
position), together with the current-step cursor, the shared variable
store, the `fulfill` result accumulation, and the terminal `done`
emissions observed so far (the completion sink of the Task). -/
structure TaskState (α ε : Type) : Type where
  stepNames : List String
  currIndex : Nat
  varStore : List (String × α)
  results : List α
  doneEvents : List (Option ε)
deriving DecidableEq

/-- Modelled from the spec: `Task._getStep` resolves an absolute index to
the step at that position, and fails with a not-found sentinel when the
index is out of range (never clamping).  `Step.js` may pass a negative
number here (`currIndex + step`), so the argument is an integer. -/
def getStepIdx (t : TaskState α ε) (i : Int) : Option Nat :=
if 0 ≤ i ∧ i < (t.stepNames.length : Int) then some i.toNat else none

/-- Modelled from the spec: `Task._getStep` resolves a string by exact
match against the step names; the `_index` of the found step is its position. -/
def getStepName (t : TaskState α ε) (s : String) : Option Nat :=
t.stepNames.findIdx? (· = s)

/-- Modelled from the spec: `Task._run(index, ...)` sets the current
cursor to `index` and invokes the handler of that step.  The handler invocation
is recorded by the caller (`jump` returns a `ran` outcome); the state
effect is the cursor move. -/
def taskRun (t : TaskState α ε) (target : Nat) : TaskState α ε :=
{ t with currIndex := target }

/-- Modelled from the spec: the fulfillment accumulator of the Task
`Task._result` appends the supplied value to the result accumulation of the
Task.  It is invoked with the Task as binding context, which is
how it reaches this state. -/
def emitFulfillment (t : TaskState α ε) (v : α) : TaskState α ε :=
{ t with results := t.results ++ [v] }

/-! ## The Step methods (Step.js lines 41-198) -/

/-- A JavaScript argument passed to `done` after `err`: either a function
(identified by a tag, since only its identity matters to the control
flow) or a plain value. -/
inductive DoneArg (α : Type) : Type
| fn (id : Nat)
| val (v : α)
deriving DecidableEq

/-- The continuation `done` selects: the user-supplied function argument,
or the default `this.next`. -/
inductive Continuation : Type
| nextCont
| userCont (id : Nat)
deriving DecidableEq

/-- What a call to `done` did: called `end(err)`, or invoked a
continuation with `this` bound to the step identified by `self` and the
remaining arguments forwarded. -/
inductive DoneOutcome (α ε : Type) : Type
| ended (e : ε)
| invoked (self : Nat) (k : Continuation) (args : List (DoneArg α))
deriving DecidableEq

/-- Step.js lines 194-198, `Step.prototype.end`: emits the terminal `done` event of the
Task carrying `err || null`. -/
def endTask (t : TaskState α ε) (e : Option ε) : TaskState α ε :=
{ t with doneEvents := t.doneEvents ++ [e] }

/-- Step.js lines 41-58, `Step.prototype.done`.  The arguments after `err`
are `rest`; `undefined` in the error slot was already normalized into
`none` by the `Option ε` encoding (the code turns it into `null`).  The
callback is taken from the front of `rest` when that is a function,
otherwise it defaults to `this.next`; a truthy `err` calls `end(err)` and
the callback is discarded, a falsy one invokes the callback with `this`
bound to the step (`self`) and the remaining arguments. -/
def Step.done (self : Nat) (t : TaskState α ε) (err : Option ε)
    (rest : List (DoneArg α)) : DoneOutcome α ε × TaskState α ε :=
let cb : Continuation × List (DoneArg α) :=
  match rest with
  | .fn id :: tl => (.userCont id, tl)
  | _ => (.nextCont, rest)
match err with
| some e => (.ended e, endTask t (some e))
| none => (.invoked self cb.1 cb.2, t)

/-- The `step` argument of `jump`: a step name, a number, or a value of
any other type (which resolves to not-found). -/
inductive StepRef : Type
| byName (s : String)
| byNum (n : Int)
| other
deriving DecidableEq

/-- What a call to `jump` did: threw an `Error`, returned as a self-jump
no-op, or delegated to `Task._run` on the target with the forwarded
arguments. -/
inductive JumpOutcome (α : Type) : Type
| threw
| noop
| ran (target : Nat) (args : List α)
deriving DecidableEq

/-- Step.js lines 151-160, the `targetStep` resolution inside `jump`: a
string is looked up by name; a number is an absolute index, or, when
negative, relative to the current index of the Task; any other type yields
`null`.  Returns the `_index` of the target step. -/
def resolveTarget (t : TaskState α ε) : StepRef → Option Nat
| .byName s => getStepName t s
| .byNum n => getStepIdx t (if n < 0 then (t.currIndex : Int) + n else n)
| .other => none

/-- Step.js lines 145-174, `Step.prototype.jump`: throws when `step` is
`undefined` (`none`) or when resolution finds no step; returns without
doing anything when the target index equals the current index; otherwise
delegates to `Task._run(targetIndex, ...args)`. -/
def Step.jump (t : TaskState α ε) (ref : Option StepRef) (args : List α) :
    JumpOutcome α × TaskState α ε :=
match ref with
| none => (.threw, t)
| some r =>
    match resolveTarget t r with
    | none => (.threw, t)
    | some target =>
        if target = t.currIndex then (.noop, t)
        else (.ran target args, taskRun t target)

/-- What a call to `next` did: delegated to `jump`, or ended the Task. -/
inductive NextOutcome (α : Type) : Type
| jumped (j : JumpOutcome α)
| endedTask
deriving DecidableEq

/-- Step.js lines 179-189, `Step.prototype.next`: when a following step
exists, `jump(currIndex + 1, ...args)`; otherwise `end()` with no
error. -/
def Step.next (t : TaskState α ε) (args : List α) :
    NextOutcome α × TaskState α ε :=
if t.currIndex + 1 < t.stepNames.length then
  let j := Step.jump t (some (.byNum ((t.currIndex : Int) + 1))) args
  (.jumped j.1, j.2)
else (.endedTask, endTask t none)

/-- Step.js lines 77-83, `Step.prototype.fulfill`: applies the fulfillment
accumulator of the Task (bound to the Task) to every supplied value in
argument order. -/
def Step.fulfill (t : TaskState α ε) (vals : List α) : TaskState α ε :=
vals.foldl emitFulfillment t

/-- Lookup in the shared variable store of the Task; the most recent write to a
key wins, matching assignment to a JavaScript object property.  A key
never written reads as `undefined` (`none`). -/
def getVar (vs : List (String × α)) (k : String) : Option α :=
(vs.find? fun p => p.1 = k).map Prod.snd

/-- A call to `vars` by its arity: one argument (read), two arguments
(write), or any other number of arguments. -/
inductive VarsCall (α : Type) : Type
| read (k : String)
| write (k : String) (v : α)
| otherArity (n : Nat)
deriving DecidableEq

/-- The value a `vars` call returns: a stored value, `undefined` for a
missing key, or the `null` sentinel. -/
inductive VarsRet (α : Type) : Type
| val (v : α)
| undef
| nullv
deriving DecidableEq

/-- Step.js lines 86-92, `Step.prototype.vars`: with exactly one argument
it reads `this._task._variables[key]`; with exactly two it assigns and
returns the assigned value; any other arity returns `null`. -/
def Step.vars (t : TaskState α ε) : VarsCall α → VarsRet α × TaskState α ε
| .read k =>
    (match getVar t.varStore k with
     | some v => .val v
     | none => .undef, t)
| .write k v => (.val v, { t with varStore := (k, v) :: t.varStore })
| .otherArity _ => (.nullv, t)

/-! ## Lemmas about the `parallel` fan-in machinery -/

theorem pDone_fst_err (len : Nat) (s : PState ρ) (n : Nat) (e : ε) :
    (pDone (ρ := ρ) len s (.err n e)).1 = s := rfl

theorem pDone_snd_err (len : Nat) (s : PState ρ) (n : Nat) (e : ε) :
    (pDone (ρ := ρ) len s (.err n e)).2 = [.failed e] := rfl

theorem pDone_fst_ok (len : Nat) (s : PState ρ) (n : Nat) (r : ρ) :
    (pDone (ε := ε) len s (.ok n r)).1 = ⟨s.completed + 1, s.result.set n (some r)⟩ := by
  simp only [pDone]
  split <;> rfl

theorem pDone_snd_ok (len : Nat) (s : PState ρ) (n : Nat) (r : ρ) :
    (pDone (ε := ε) len s (.ok n r)).2 =
      if len ≤ s.completed + 1 then [.success (s.result.set n (some r))] else [] := by
  simp only [pDone]
  split <;> simp_all

theorem pRunFrom_cons (len : Nat) (s : PState ρ) (ev : PEvent ε ρ)
    (rest : List (PEvent ε ρ)) :
    pRunFrom len s (ev :: rest) =
      ((pRunFrom len (pDone len s ev).1 rest).1,
       (pDone len s ev).2 ++ (pRunFrom len (pDone len s ev).1 rest).2) := rfl

theorem okCount_nil : okCount ([] : List (PEvent ε ρ)) = 0 := rfl

theorem okCount_cons_ok (n : Nat) (r : ρ) (rest : List (PEvent ε ρ)) :
    okCount (.ok n r :: rest) = okCount rest + 1 := by
  simp [okCount, PEvent.isErr, List.filter_cons]

theorem okCount_cons_err (n : Nat) (e : ε) (rest : List (PEvent ε ρ)) :
    okCount (.err n e :: rest) = okCount rest := by
  simp [okCount, PEvent.isErr, List.filter_cons]

theorem errCalls_cons_ok (n : Nat) (r : ρ) (rest : List (PEvent ε ρ)) :
    errCalls (.ok n r :: rest) = errCalls rest := by
  simp [errCalls, List.filterMap_cons]

theorem errCalls_cons_err (n : Nat) (e : ε) (rest : List (PEvent ε ρ)) :
    errCalls (.err n e :: rest) = .failed e :: errCalls rest := by
  simp [errCalls, List.filterMap_cons]

theorem errCalls_eq_nil (events : List (PEvent ε ρ))
    (h : ∀ ev ∈ events, ev.isErr = false) : errCalls events = [] := by
  induction events with
  | nil => rfl
  | cons ev rest ih =>
      cases ev with
      | ok n r => rw [errCalls_cons_ok]; exact ih fun e he => h e (List.mem_cons_of_mem _ he)
      | err n e => exact absurd (h _ (List.mem_cons_self _ _)) (by simp [PEvent.isErr])

/-- The `completed` counter after a trace is its start value plus the
number of successful completions processed. -/
theorem pRunFrom_completed (len : Nat) (s : PState ρ) (events : List (PEvent ε ρ)) :
    (pRunFrom len s events).1.completed = s.completed + okCount events := by
  induction events generalizing s with
  | nil => simp [pRunFrom, okCount_nil]
  | cons ev rest ih =>
      rw [pRunFrom_cons]
      cases ev with
      | err n e => rw [pDone_fst_err, okCount_cons_err]; exact ih s
      | ok n r =>
          rw [pDone_fst_ok, okCount_cons_ok]
          simp only [ih]
          omega

/-- As long as the counter cannot reach `len`, the only callback calls a
trace produces are its error calls, one per erroring branch, in order. -/
theorem pRunFrom_calls_of_lt (len : Nat) (s : PState ρ) (events : List (PEvent ε ρ))
    (h : s.completed + okCount events < len) :
    (pRunFrom len s events).2 = errCalls events := by
  induction events generalizing s with
  | nil => rfl
  | cons ev rest ih =>
      rw [pRunFrom_cons]
      cases ev with
      | err n e =>
          rw [pDone_fst_err, pDone_snd_err, errCalls_cons_err]
          rw [okCount_cons_err] at h
          simp [ih s h]
      | ok n r =>
          rw [okCount_cons_ok] at h
          rw [pDone_fst_ok, pDone_snd_ok, errCalls_cons_ok, if_neg (by omega)]
          exact (List.nil_append _) ▸ ih _ (by simpa using by omega)

theorem pRunFrom_result_length (len : Nat) (s : PState ρ) (events : List (PEvent ε ρ)) :
    (pRunFrom len s events).1.result.length = s.result.length := by
  induction events generalizing s with
  | nil => rfl
  | cons ev rest ih =>
      rw [pRunFrom_cons]
      cases ev with
      | err n e => rw [pDone_fst_err]; exact ih s
      | ok n r => rw [pDone_fst_ok]; rw [ih]; exact List.length_set ..

/-- A result slot no processed event reports into is left unchanged. -/
theorem pRunFrom_result_untouched (len n : Nat) (s : PState ρ)
    (events : List (PEvent ε ρ)) (h : ∀ ev ∈ events, ev.idx ≠ n) :
    (pRunFrom len s events).1.result[n]? = s.result[n]? := by
  induction events generalizing s with
  | nil => rfl
  | cons ev rest ih =>
      rw [pRunFrom_cons]
      cases ev with
      | err m e =>
          rw [pDone_fst_err]
          exact ih s fun e' he' => h e' (List.mem_cons_of_mem _ he')
      | ok m r =>
          rw [pDone_fst_ok]
          rw [ih _ fun e' he' => h e' (List.mem_cons_of_mem _ he')]
          exact List.getElem?_set_ne (h _ (List.mem_cons_self _ _))

/-- Out-of-order completions land index-aligned: when no branch reports
twice, the slot of branch `n` holds exactly the result branch `n`
reported. -/
theorem pRunFrom_result_get (len n : Nat) (r : ρ) (s : PState ρ)
    (events : List (PEvent ε ρ)) (hnd : (events.map PEvent.idx).Nodup)
    (hmem : PEvent.ok n r ∈ events) (hn : n < s.result.length) :
    (pRunFrom len s events).1.result[n]? = some (some r) := by
  induction events generalizing s with
  | nil => cases hmem
  | cons ev rest ih =>
      rw [List.map_cons, List.nodup_cons] at hnd
      rcases List.mem_cons.mp hmem with heq | hmem'
      · subst heq
        rw [pRunFrom_cons, pDone_fst_ok]
        rw [pRunFrom_result_untouched]
        · exact List.getElem?_set_eq_of_lt _ hn
        · intro ev' hev' hidx
          have hm : ev'.idx ∈ List.map PEvent.idx rest := List.mem_map_of_mem _ hev'
          rw [hidx] at hm
          exact hnd.1 hm
      · rw [pRunFrom_cons]
        cases ev with
        | err m e => rw [pDone_fst_err]; exact ih _ hnd.2 hmem' hn
        | ok m q =>
            rw [pDone_fst_ok]
            exact ih _ hnd.2 hmem' (by simpa using hn)

/-- A nonempty all-success trace that completes every remaining branch
produces exactly one callback call, the success call, carrying the final
result array. -/
theorem pRunFrom_allOk (len : Nat) (s : PState ρ) (events : List (PEvent ε ρ))
    (hok : ∀ ev ∈ events, ev.isErr = false)
    (hlen : s.completed + events.length = len) (hne : events ≠ []) :
    (pRunFrom len s events).2 = [.success (pRunFrom len s events).1.result] := by
  induction events generalizing s with
  | nil => cases hne rfl
  | cons ev rest ih =>
      cases ev with
      | err m e => exact absurd (hok _ (List.mem_cons_self _ _)) (by simp [PEvent.isErr])
      | ok m q =>
          rw [pRunFrom_cons, pDone_fst_ok, pDone_snd_ok]
          rcases rest with _ | ⟨ev', rest'⟩
          · simp only [List.length_cons, List.length_nil] at hlen
            rw [if_pos (by omega)]
            rfl
          · rw [if_neg (by simp only [List.length_cons] at hlen; omega)]
            have hrec := ih ⟨s.completed + 1, s.result.set m (some q)⟩
              (fun e' he' => hok e' (List.mem_cons_of_mem _ he'))
              (by simp only [List.length_cons] at hlen ⊢; omega) (by simp)
            simpa using hrec

theorem okCount_lt_of_err (events : List (PEvent ε ρ))
    (herr : ∃ ev ∈ events, ev.isErr = true) : okCount events < events.length := by
  induction events with
  | nil => simp at herr
  | cons ev rest ih =>
      cases ev with
      | err n e =>
          rw [okCount_cons_err]
          have : okCount rest ≤ rest.length := List.length_filter_le _ _
          simp only [List.length_cons]
          omega
      | ok n r =>
          rw [okCount_cons_ok]
          obtain ⟨ev', hev', he'⟩ := herr
          rcases List.mem_cons.mp hev' with heq | hmem
          · rw [heq] at he'; simp [PEvent.isErr] at he'
          · have := ih ⟨ev', hmem, he'⟩
            simp only [List.length_cons]
            omega

/-- Branches report at most once each and only dispatched branches
report, so a trace has at most `len` events. -/
theorem trace_length_le (len : Nat) (events : List (PEvent ε ρ))
    (hnd : (events.map PEvent.idx).Nodup) (hlt : ∀ ev ∈ events, ev.idx < len) :
    events.length ≤ len := by
  have hsub : events.map PEvent.idx ⊆ List.range len := by
    intro x hx
    obtain ⟨ev, hev, rfl⟩ := List.mem_map.mp hx
    exact List.mem_range.mpr (hlt ev hev)
  have := (hnd.subperm hsub).length_le
  simpa using this

/-! ## Claim theorems about `parallel` -/

/-- C1 (counterexample): with two branches that both report errors, the
aggregation callback is invoked twice, once per error — not exactly once
as the claim states.  The internal `done` closure calls `callback(err)`
unconditionally on every error, with no once-guard. -/
theorem parallel_double_error_counterexample :
    pRun (ε := Nat) (ρ := Nat) 2 [.err 0 5, .err 1 7] = [.failed 5, .failed 7] ∧
    (pRun (ε := Nat) (ρ := Nat) 2 [.err 0 5, .err 1 7]).length ≠ 1 := by
  constructor <;> decide

/-- C1 (amended): over a trace in which each dispatched branch reports at
most once, if at least one branch errors the aggregation callback is
invoked once per erroring branch, in observation order — so exactly once
when exactly one branch errors, with the first invocation carrying the
first error, and a branch completing after an earlier error triggers no
invocation; if no branch errors and all branches complete, it is invoked
exactly once with `(null, results)`. -/
theorem parallel_calls_per_error (len : Nat) (events : List (PEvent ε ρ))
    (hnd : (events.map PEvent.idx).Nodup) (hlt : validEvents len events) :
    ((∃ ev ∈ events, ev.isErr = true) → pRun len events = errCalls events) ∧
    ((∀ ev ∈ events, ev.isErr = false) → events.length = len → 0 < len →
      ∃ rs, pRun len events = [.success rs]) := by
  constructor
  · intro herr
    have hle : events.length ≤ len := trace_length_le len events hnd hlt
    have hlt' : okCount events < events.length := okCount_lt_of_err events herr
    have h0 : (pInit (ρ := ρ) len).completed = 0 := rfl
    exact pRunFrom_calls_of_lt len (pInit len) events (by omega)
  · intro hok hfull hpos
    refine ⟨(pRunFrom len (pInit len) events).1.result, ?_⟩
    exact pRunFrom_allOk len (pInit len) events hok
      (by simp [pInit, hfull]) (by intro h; rw [h] at hfull; simp at hfull; omega)

/-- C3: when every branch completes successfully and none reports twice,
the callback fires exactly once with `(null, results)`, `results` is
index-aligned — the result of branch `n` is at position `n` regardless of
completion order — and no callback call happens before all `len` branches
have completed (every proper prefix of the trace produces no call). -/
theorem parallel_success_index_aligned (len : Nat) (events : List (PEvent ε ρ))
    (hok : ∀ ev ∈ events, ev.isErr = false)
    (hnd : (events.map PEvent.idx).Nodup) (hlt : validEvents len events)
    (hfull : events.length = len) (hpos : 0 < len) :
    ∃ rs : List (Option ρ),
      pRun len events = [.success rs] ∧ rs.length = len ∧
      (∀ n r, PEvent.ok n r ∈ events → rs[n]? = some (some r)) ∧
      (∀ k, k < len → pRun len (events.take k) = []) := by
  refine ⟨(pRunFrom len (pInit len) events).1.result, ?_, ?_, ?_, ?_⟩
  · exact pRunFrom_allOk len (pInit len) events hok
      (by simp [pInit, hfull]) (by intro h; rw [h] at hfull; simp at hfull; omega)
  · rw [pRunFrom_result_length]; simp [pInit]
  · intro n r hmem
    refine pRunFrom_result_get len n r (pInit len) events hnd hmem ?_
    have := hlt _ hmem
    simpa [pInit, PEvent.idx] using this
  · intro k hk
    have h1 : okCount (events.take k) ≤ (events.take k).length :=
      List.length_filter_le _ _
    have h2 : (events.take k).length ≤ k := by
      rw [List.length_take]; omega
    have h0 : (pInit (ρ := ρ) len).completed = 0 := rfl
    have hcalls := pRunFrom_calls_of_lt len (pInit len) (events.take k) (by omega)
    rw [pRun, hcalls]
    exact errCalls_eq_nil _ fun ev hev => hok ev (List.mem_of_mem_take hev)

/-- C1 witness: applying the amended statement at concrete traces — a
one-error trace yields exactly the one error call, an all-success trace
yields one success call. -/
theorem parallel_calls_per_error_witness :
    pRun (ε := Nat) (ρ := Nat) 2 [.err 0 5, .ok 1 9] = errCalls [.err 0 5, .ok 1 9] ∧
    ∃ rs, pRun (ε := Nat) (ρ := Nat) 2 [.ok 1 9, .ok 0 8] = [.success rs] :=
  ⟨(parallel_calls_per_error 2 [.err 0 5, .ok 1 9] (by decide)
      (by unfold validEvents; decide)).1 (by decide),
   (parallel_calls_per_error 2 [.ok 1 9, .ok 0 8] (by decide)
      (by unfold validEvents; decide)).2 (by decide) (by decide) (by decide)⟩

/-- C3 witness: three branches completing out of order produce exactly one
index-aligned success call, and every proper prefix produces no call. -/
theorem parallel_success_index_aligned_witness :
    ∃ rs : List (Option Nat),
      pRun (ε := Nat) 3 [.ok 1 11, .ok 0 10, .ok 2 12] = [.success rs] ∧
      rs.length = 3 ∧
      (∀ n r, PEvent.ok n r ∈ ([.ok 1 11, .ok 0 10, .ok 2 12] :
        List (PEvent Nat Nat)) → rs[n]? = some (some r)) ∧
      (∀ k, k < 3 →
        pRun 3 (([.ok 1 11, .ok 0 10, .ok 2 12] : List (PEvent Nat Nat)).take k) = []) :=
  parallel_success_index_aligned 3 [.ok 1 11, .ok 0 10, .ok 2 12]
    (by decide) (by decide) (by unfold validEvents; decide) (by decide) (by decide)

/-- C10: a `parallel` call over an empty items sequence dispatches no
branch, so no completion event can ever occur and the aggregation
callback is never invoked — with neither an error nor results. -/
theorem parallel_empty_never_calls (events : List (PEvent ε ρ))
    (h : validEvents 0 events) : pRun 0 events = [] := by
  cases events with
  | nil => rfl
  | cons ev rest => exact absurd (h ev (List.mem_cons_self _ _)) (by omega)

/-- C10 witness: the only trace an empty fan-out admits is the empty one,
and it produces no callback call. -/
theorem parallel_empty_never_calls_witness :
    validEvents 0 ([] : List (PEvent Nat Nat)) ∧
    pRun (ε := Nat) (ρ := Nat) 0 [] = [] :=
  ⟨by unfold validEvents; decide, parallel_empty_never_calls [] (by unfold validEvents; decide)⟩

/-! ## Claim theorems about the other Step methods -/

/-- Whether the first remaining `done` argument is a function. -/
def headIsFn : List (DoneArg α) → Bool
| .fn _ :: _ => true
| _ => false

/-- C2: `done` with a truthy error calls `end(err)` — the terminal `done`
event carrying the error is emitted — and the callback argument, function
or not, is discarded: the outcome is never an invocation of any
continuation. -/
theorem done_truthy_err_ends_task (self : Nat) (t : TaskState α ε) (e : ε)
    (rest : List (DoneArg α)) :
    Step.done self t (some e) rest = (.ended e, endTask t (some e)) ∧
    (Step.done self t (some e) rest).2.doneEvents = t.doneEvents ++ [some e] ∧
    ∀ s' k args, (Step.done self t (some e) rest).1 ≠ DoneOutcome.invoked s' k args := by
  refine ⟨rfl, rfl, ?_⟩
  intro s' k args h
  cases h

/-- C6: `done` with a falsy error takes the continuation from the front of
the remaining arguments when that is a function, and `next` otherwise;
the continuation is invoked with `this` bound to the step, the remaining
arguments are forwarded verbatim, and the Task is not terminated (state
unchanged, no terminal event emitted). -/
theorem done_falsy_invokes_continuation (self : Nat) (t : TaskState α ε)
    (id : Nat) (rest rest' : List (DoneArg α)) (h : headIsFn rest' = false) :
    Step.done self t none (.fn id :: rest) = (.invoked self (.userCont id) rest, t) ∧
    Step.done self t none rest' = (.invoked self .nextCont rest', t) := by
  constructor
  · rfl
  · cases rest' with
    | nil => rfl
    | cons a tl =>
        cases a with
        | fn i => simp [headIsFn] at h
        | val v => rfl

/-- C6 witness: `done(undefined, cb, a, b)` invokes `cb` bound to the step
with `(a, b)` and leaves the Task running; without a leading function the
continuation defaults to `next`. -/
theorem done_falsy_invokes_continuation_witness :
    headIsFn ([DoneArg.val 7, DoneArg.val 8] : List (DoneArg Nat)) = false ∧
    Step.done (ε := Nat) 0 ⟨["a"], 0, [], [], []⟩ none [.fn 3, .val 7, .val 8] =
      (.invoked 0 (.userCont 3) [.val 7, .val 8], ⟨["a"], 0, [], [], []⟩) ∧
    Step.done (ε := Nat) 0 ⟨["a"], 0, [], [], []⟩ none [.val 7, .val 8] =
      (.invoked 0 .nextCont [.val 7, .val 8], ⟨["a"], 0, [], [], []⟩) :=
  ⟨by decide,
   (done_falsy_invokes_continuation 0 ⟨["a"], 0, [], [], []⟩ 3
     [.val 7, .val 8] [.val 7, .val 8] (by decide)).1,
   (done_falsy_invokes_continuation 0 ⟨["a"], 0, [], [], []⟩ 3
     [.val 7, .val 8] [.val 7, .val 8] (by decide)).2⟩

/-- A three-step example Task sitting at index 1, used by the witnesses. -/
def tEx : TaskState Nat Nat := ⟨["a", "b", "c"], 1, [], [], []⟩

/-- The same example Task sitting at its last step. -/
def t2Ex : TaskState Nat Nat := ⟨["a", "b", "c"], 2, [], [], []⟩

/-- C4: `jump` with an undefined reference, or with a reference that
resolves to no existing step — unknown name, out-of-range absolute index,
or a value of any other type — throws an `Error`, and the current index of
the Task is unchanged (nothing ran before the throw). -/
theorem jump_unresolved_throws (t : TaskState α ε) (ref : Option StepRef)
    (args : List α)
    (h : ref = none ∨ ∃ r, ref = some r ∧ resolveTarget t r = none) :
    Step.jump t ref args = (.threw, t) ∧
    (Step.jump t ref args).2.currIndex = t.currIndex := by
  rcases h with rfl | ⟨r, rfl, hr⟩
  · exact ⟨rfl, rfl⟩
  · constructor <;> simp [Step.jump, hr]

/-- C4 witness: an out-of-range absolute index resolves to nothing, the
jump throws and the current index stays put; likewise for an undefined
reference. -/
theorem jump_unresolved_throws_witness :
    resolveTarget tEx (.byNum 7) = none ∧
    Step.jump tEx (some (.byNum 7)) ([] : List Nat) = (.threw, tEx) ∧
    Step.jump tEx (none : Option StepRef) ([] : List Nat) = (.threw, tEx) :=
  ⟨by decide,
   (jump_unresolved_throws tEx (some (.byNum 7)) []
     (Or.inr ⟨.byNum 7, rfl, by decide⟩)).1,
   (jump_unresolved_throws tEx none [] (Or.inl rfl)).1⟩

/-- C5: a negative number `-k` passed to `jump` from current index `i`
resolves to absolute index `i - k`; and whenever the resolved target index
equals the current index, `jump` is a no-op — it returns without
delegating to `Task._run` and leaves the Task state unchanged. -/
theorem jump_relative_and_self_noop (t : TaskState α ε) (k : Nat)
    (r : StepRef) (args : List α) :
    (0 < k → k ≤ t.currIndex → t.currIndex < t.stepNames.length →
      resolveTarget t (.byNum (-(k : Int))) = some (t.currIndex - k)) ∧
    (resolveTarget t r = some t.currIndex →
      Step.jump t (some r) args = (.noop, t)) := by
  constructor
  · intro hk hle hcur
    have hneg : -(k : Int) < 0 := by omega
    simp only [resolveTarget]
    rw [if_pos hneg]
    simp only [getStepIdx]
    rw [if_pos (by constructor <;> omega)]
    congr 1
    omega
  · intro hres
    simp [Step.jump, hres]

/-- C5 witness: from index 1, `jump(-1)` resolves to index 0, and a
reference resolving to the current index is a silent no-op. -/
theorem jump_relative_and_self_noop_witness :
    resolveTarget tEx (.byNum (-1)) = some 0 ∧
    Step.jump tEx (some (.byNum 1)) ([] : List Nat) = (.noop, tEx) := by
  constructor
  · have h := (jump_relative_and_self_noop tEx 1 (.byNum 1) ([] : List Nat)).1
      (by decide) (by decide) (by decide)
    simpa using h
  · exact (jump_relative_and_self_noop tEx 1 (.byNum 1) ([] : List Nat)).2 (by decide)

/-- C7: `next` jumps to `currIndex + 1` forwarding its arguments when a
following step exists; otherwise it calls `end()` with no error, emitting
the terminal `done` event with the null (non-error) outcome. -/
theorem next_advances_or_ends (t : TaskState α ε) (args : List α) :
    (t.currIndex + 1 < t.stepNames.length →
      Step.next t args =
        (.jumped (.ran (t.currIndex + 1) args), taskRun t (t.currIndex + 1))) ∧
    (¬ t.currIndex + 1 < t.stepNames.length →
      Step.next t args = (.endedTask, endTask t none) ∧
      (Step.next t args).2.doneEvents = t.doneEvents ++ [none]) := by
  constructor
  · intro h
    have hres : resolveTarget t (.byNum ((t.currIndex : Int) + 1)) =
        some (t.currIndex + 1) := by
      simp only [resolveTarget]
      rw [if_neg (by omega)]
      simp only [getStepIdx]
      rw [if_pos (by constructor <;> omega)]
      congr 1
    simp only [Step.next, if_pos h, Step.jump, hres]
    rw [if_neg (by omega)]
  · intro h
    refine ⟨?_, ?_⟩ <;> simp [Step.next, h, endTask]

/-- C7 witness: from index 1 of three steps, `next` runs step 2 forwarding
its argument; from the last step, `next` emits the terminal event with a
null outcome. -/
theorem next_advances_or_ends_witness :
    Step.next tEx ([3] : List Nat) = (.jumped (.ran 2 [3]), taskRun tEx 2) ∧
    Step.next t2Ex ([] : List Nat) = (.endedTask, endTask t2Ex none) :=
  ⟨(next_advances_or_ends tEx [3]).1 (by decide),
   ((next_advances_or_ends t2Ex []).2 (by decide)).1⟩

/-- C8: `fulfill` hands every supplied value, in argument order, to the
fulfillment accumulator of the Task, which appends it to the result
accumulation of the Task; `fulfill` performs no flow control — the cursor,
the variable store and the terminal-event list are untouched. -/
theorem fulfill_appends_in_order (t : TaskState α ε) (vals : List α) :
    Step.fulfill t vals = { t with results := t.results ++ vals } ∧
    (Step.fulfill t vals).currIndex = t.currIndex ∧
    (Step.fulfill t vals).doneEvents = t.doneEvents := by
  have hmain : Step.fulfill t vals = { t with results := t.results ++ vals } := by
    induction vals generalizing t with
    | nil => simp [Step.fulfill]
    | cons v tl ih =>
        show Step.fulfill (emitFulfillment t v) tl = _
        rw [ih]
        simp [emitFulfillment]
  exact ⟨hmain, by rw [hmain], by rw [hmain]⟩

/-- C9: `vars` with one argument reads the variable store of the Task (the
stored value, or `undefined` when absent) without modifying it; with two
arguments it writes and returns the written value; any other arity returns
the `null` sentinel and leaves the store untouched.  A write followed by a
read of the same key on the same Task returns the written value, and other
keys are unaffected. -/
theorem vars_read_write_laws (t : TaskState α ε) (k k' : String) (v : α)
    (n : Nat) :
    (Step.vars t (.read k)).2 = t ∧
    (∀ w, getVar t.varStore k = some w → (Step.vars t (.read k)).1 = .val w) ∧
    (getVar t.varStore k = none → (Step.vars t (.read k)).1 = .undef) ∧
    (Step.vars t (.write k v)).1 = .val v ∧
    Step.vars t (.otherArity n) = (.nullv, t) ∧
    (Step.vars (Step.vars t (.write k v)).2 (.read k)).1 = .val v ∧
    (k' ≠ k → getVar (Step.vars t (.write k v)).2.varStore k' =
      getVar t.varStore k') := by
  refine ⟨?_, ?_, ?_, ?_, ?_, ?_, ?_⟩
  · simp only [Step.vars]
  · intro w hw
    simp [Step.vars, hw]
  · intro hw
    simp [Step.vars, hw]
  · rfl
  · rfl
  · simp [Step.vars, getVar, List.find?]
  · intro hk
    simp [Step.vars, getVar, List.find?, Ne.symm hk]

/-- A one-step example Task whose store already holds `k ↦ 5`. -/
def tVar : TaskState Nat Nat := ⟨["a"], 0, [("k", 5)], [], []⟩

/-- C9 witness: reading a present key returns its value, reading an absent
key returns `undefined`, a write followed by a read returns the written
value, and a write leaves a different key unaffected. -/
theorem vars_read_write_laws_witness :
    (Step.vars tVar (.read "k")).1 = .val 5 ∧
    (Step.vars tEx (.read "k")).1 = VarsRet.undef ∧
    (Step.vars (Step.vars tEx (.write "k" 1)).2 (.read "k")).1 = .val 1 ∧
    getVar (Step.vars tEx (.write "k" (1 : Nat))).2.varStore "j" =
      getVar tEx.varStore "j" :=
  ⟨(vars_read_write_laws tVar "k" "j" 1 3).2.1 5 (by decide),
   (vars_read_write_laws tEx "k" "j" 1 3).2.2.1 (by decide),
   (vars_read_write_laws tEx "k" "j" 1 3).2.2.2.2.2.1,
   (vars_read_write_laws tEx "k" "j" 1 3).2.2.2.2.2.2 (by decide)⟩

end Stepify
